import Mathlib

/-!
Shallow embedding of the document annotation engine of the Textile
Exchange style checker (`src/checker/run.py`, function `analyze_doc`),
together with theorems settling the specification's claims about it.

Modelling conventions:
* Paragraph text and matched spans are `List Char`; the paragraph's flat
  text is by construction the concatenation of its runs' texts (the
  `python-docx` run invariant of spec section 3).
* Python `re` scanning over the fixed word classes used by the code
  (`\b<literal>\b` with IGNORECASE, `\b[A-Za-z]{2,}\b`, `\b[A-Z]{2,}\b`,
  `\b[A-Z]{3,}\b`, and the letters-plus-apostrophe token class) is
  embedded as fuel-bounded left-to-right scanners with the same
  word-boundary and greedy-with-backtracking semantics, restricted to the
  ASCII character classes the patterns name.
* The wordfreq frequency table is external data; the engine is
  parameterised by a frequency function into `ℚ`.  The source's float
  literals `0.6` and `1e-6` are modelled by the rationals `3/5` and
  `1/1000000`; for list lengths and table values of realistic magnitude
  the IEEE comparisons in the source agree with these rational
  comparisons.
* The per-paragraph mutable state (`applied_indices`, `reported`,
  `results`, the run colors) is threaded explicitly through `PState`.
  The extra field `colored` is a ghost event log recording each range
  that was colored, in order; it is written exactly where the source
  colors a range and read by no operation.
-/

namespace Styler

/-- RGB color triple, mirroring `docx.shared.RGBColor`. -/
structure RGB where
  r : Nat
  g : Nat
  b : Nat
deriving DecidableEq

/-- A formatted run: a contiguous span of paragraph text sharing one font
color.  The engine reads `run.text` and writes `run.font.color.rgb`. -/
structure Run where
  text : List Char
  color : Option RGB
deriving DecidableEq

/-- A style rule as flattened by `load_rules` in `src/checker/run.py`:
`pattern` is the literal phrase matched whole-word, the remaining fields
are carried into issues.  `replacement` and `rtype` are loaded by the
source but never used by `analyze_doc`. -/
structure Rule where
  pattern : List Char
  replacement : Option String
  message : String
  severity : String
  rtype : String
deriving DecidableEq

/-- An issue record, one element of the `results` list built by
`analyze_doc`.  The Python dicts carry the key `all_caps` only on the
synthetic whole-paragraph issue; absent keys read as falsy, so it is
modelled as a `Bool` that is `false` everywhere else. -/
structure Issue where
  matched : List Char
  severity : String
  message : String
  suggested_replacement : String
  context : List Char
  paragraph_index : Nat
  char_index : Nat
  all_caps : Bool
deriving DecidableEq

/-- SEVERITY_COLOR_RGB lookup, with the source's `.get` default of red. -/
def severityColor (sev : String) : RGB :=
  if sev = "advice" then ⟨255, 255, 0⟩
  else if sev = "warning" then ⟨255, 165, 0⟩
  else if sev = "error" then ⟨255, 0, 0⟩
  else ⟨255, 0, 0⟩

/-- The BRITISH_TO_AMERICAN table of `src/checker/run.py`. -/
def BRITISH_TO_AMERICAN : List (List Char × List Char) :=
  [("organisation".data, "organization".data),
   ("organisations".data, "organizations".data),
   ("colour".data, "color".data),
   ("colours".data, "colors".data),
   ("fibre".data, "fiber".data),
   ("programme".data, "program".data),
   ("labour".data, "labor".data),
   ("centre".data, "center".data),
   ("behaviour".data, "behavior".data),
   ("travelling".data, "traveling".data),
   ("travelled".data, "traveled".data)]

/-- Dictionary-key lookup in the regional spelling table. -/
def britishLookup (w : List Char) : Option (List Char) :=
  (BRITISH_TO_AMERICAN.find? (fun kv => kv.1 == w)).map (fun kv => kv.2)

/-- The apostrophe character, a member of the token class of the
regional-spelling and dictionary word scanners. -/
def apos : Char := Char.ofNat 39

/-- Membership in the letters-plus-apostrophe token character class. -/
def wordAposChar (c : Char) : Bool := c.isAlpha || c == apos

/-- Word character for regex word-boundary purposes (`\w`). -/
def isWordChar (c : Char) : Bool := c.isAlphanum || c == '_'

/-- Whether flat-text position `i` holds a word character
(out of range counts as non-word). -/
def wordAt (t : List Char) (i : Nat) : Bool :=
  match t.get? i with
  | some c => isWordChar c
  | none => false

/-- Regex word boundary `\b` at position `p` of `t`. -/
def boundaryAt (t : List Char) (p : Nat) : Bool :=
  (if p == 0 then false else wordAt t (p - 1)) != wordAt t p

/-- Lowercasing used for IGNORECASE comparison and dictionary keys. -/
def lowerChars (l : List Char) : List Char := l.map Char.toLower

/-- The substring of `t` covering offsets `[s, e)` (`m.group()`). -/
def slice (t : List Char) (s e : Nat) : List Char := (t.drop s).take (e - s)

/-- Anchored match of the rule regex `\b<pattern>\b` (IGNORECASE) at
position `p`. -/
def matchPatAt (t pat : List Char) (p : Nat) : Bool :=
  boundaryAt t p && boundaryAt t (p + pat.length) &&
    (lowerChars (slice t p (p + pat.length)) == lowerChars pat)

/-- Fuel-bounded `re.finditer` scan for `\b<pattern>\b`: leftmost match,
resume after each match's end. -/
def scanPatAux (t pat : List Char) : Nat → Nat → List (Nat × Nat)
  | 0, _ => []
  | fuel + 1, p =>
    if p > t.length then []
    else if matchPatAt t pat p then
      (p, p + pat.length) :: scanPatAux t pat fuel (p + pat.length)
    else scanPatAux t pat fuel (p + 1)

/-- All matches of `\b<pattern>\b` over `t`, left to right.  The fuel
`t.length + 1` bounds the scan positions `0 .. t.length`. -/
def scanPat (t pat : List Char) : List (Nat × Nat) :=
  scanPatAux t pat (t.length + 1) 0

/-- Length of the maximal run of class characters at the head of `l`. -/
def runLen (cls : Char → Bool) : List Char → Nat
  | [] => 0
  | c :: cs => if cls c then runLen cls cs + 1 else 0

/-- Greedy backtracking for `cls{k,}\b` anchored at `p`: try lengths from
`L` down to `k`, returning the first length whose end sits on a word
boundary. -/
def backLen (t : List Char) (p k : Nat) : Nat → Option Nat
  | 0 => if k == 0 && boundaryAt t p then some 0 else none
  | l + 1 =>
    if l + 1 < k then none
    else if boundaryAt t (p + (l + 1)) then some (l + 1)
    else backLen t p k l

/-- Anchored match of `\b cls{k,} \b` at position `p`: the matched length,
when one exists. -/
def matchTokAt (t : List Char) (cls : Char → Bool) (k p : Nat) : Option Nat :=
  if boundaryAt t p then backLen t p k (runLen cls (t.drop p)) else none

/-- Fuel-bounded `re.finditer` scan for the token regex `\b cls{k,} \b`. -/
def scanToksAux (t : List Char) (cls : Char → Bool) (k : Nat) :
    Nat → Nat → List (Nat × Nat)
  | 0, _ => []
  | fuel + 1, p =>
    if p > t.length then []
    else
      match matchTokAt t cls k p with
      | some l => (p, p + l) :: scanToksAux t cls k fuel (p + l)
      | none => scanToksAux t cls k fuel (p + 1)

/-- All matches of `\b cls{k,} \b` over `t`, left to right. -/
def scanToks (t : List Char) (cls : Char → Bool) (k : Nat) : List (Nat × Nat) :=
  scanToksAux t cls k (t.length + 1) 0

/-- Index of the run owning flat-text offset `i`: the `char_to_run`
mapping built per paragraph by `analyze_doc`. -/
def charToRun : List Run → Nat → Option Nat
  | [], _ => none
  | r :: rs, i =>
    if i < r.text.length then some 0
    else (charToRun rs (i - r.text.length)).map (fun j => j + 1)

/-- Recolor the run owning offset `i`
(the statement `char_to_run[i].font.color.rgb = color`). -/
def colorChar : List Run → Nat → RGB → List Run
  | [], _, _ => []
  | r :: rs, i, c =>
    if i < r.text.length then { r with color := some c } :: rs
    else r :: colorChar rs (i - r.text.length) c

/-- The offsets `start, ..., end - 1` of `range(start, end)`. -/
def rangeList (s e : Nat) : List Nat := List.range' s (e - s)

/-- Color every offset of `range(s, e)`. -/
def colorRange (runs : List Run) (s e : Nat) (c : RGB) : List Run :=
  (rangeList s e).foldl (fun rs i => colorChar rs i c) runs

/-- The guard `any(i in applied_indices for i in range(start, end))`. -/
def anyClaimed (applied : List Nat) (s e : Nat) : Bool :=
  (rangeList s e).any (fun i => applied.contains i)

/-- Per-paragraph mutable state of `analyze_doc`: the run list being
recolored, the claimed offsets `applied_indices`, the reporting dedup set
`reported` (paragraph index fixed, so only patterns are kept), the
`results` issue list, and the ghost log `colored` of colored ranges. -/
structure PState where
  runs : List Run
  applied : List Nat
  reported : List (List Char)
  issues : List Issue
  colored : List (Nat × Nat)
deriving DecidableEq

/-- Color and claim `range(s, e)`, logging the range. -/
def claimColor (st : PState) (s e : Nat) (c : RGB) : PState :=
  { st with
    runs := colorRange st.runs s e c
    applied := st.applied ++ rangeList s e
    colored := st.colored ++ [(s, e)] }

/-- Issue appended by the style/terminology rule loop. -/
def mkRuleIssue (text : List Char) (paraIdx : Nat) (r : Rule) (s e : Nat) :
    Issue :=
  { matched := slice text s e
    severity := r.severity
    message := r.message
    suggested_replacement := ""
    context := text
    paragraph_index := paraIdx
    char_index := s + 1
    all_caps := false }

/-- One `re.finditer` iteration of the rule loop: skip if any offset is
claimed, skip if the pattern was already reported in this paragraph,
otherwise color, claim, report. -/
def ruleMatchStep (paraIdx : Nat) (text : List Char) (r : Rule)
    (st : PState) (m : Nat × Nat) : PState :=
  if anyClaimed st.applied m.1 m.2 then st
  else if st.reported.contains r.pattern then st
  else
    { claimColor st m.1 m.2 (severityColor r.severity) with
      issues := st.issues ++ [mkRuleIssue text paraIdx r m.1 m.2]
      reported := st.reported ++ [r.pattern] }

/-- Process one rule: empty patterns are skipped
(`if not rule["pattern"]: continue`), otherwise fold over its matches. -/
def ruleApply (paraIdx : Nat) (text : List Char) (st : PState) (r : Rule) :
    PState :=
  if r.pattern.isEmpty then st
  else (scanPat text r.pattern).foldl (ruleMatchStep paraIdx text r) st

/-- The STYLE / TERMINOLOGY RULES phase. -/
def rulesPhase (paraIdx : Nat) (text : List Char) (rules : List Rule)
    (st : PState) : PState :=
  rules.foldl (ruleApply paraIdx text) st

/-- The tokens of `re.findall(r"\b[A-Za-z]{2,}\b", text)`. -/
def capsWords (text : List Char) : List (List Char) :=
  (scanToks text Char.isAlpha 2).map (fun m => slice text m.1 m.2)

/-- The fully-uppercase tokens among `capsWords` (`w.isupper()`). -/
def upperWords (text : List Char) : List (List Char) :=
  (capsWords text).filter (fun w => w.all Char.isUpper)

/-- Message of both capitalization checks. -/
def capsMsg : String :=
  "Avoid full capitalisation. Use sentence case unless this is an approved acronym."

/-- The synthetic whole-paragraph issue of the full-caps branch. -/
def allCapsIssue (text : List Char) (paraIdx : Nat) : Issue :=
  { matched := "ALL CAPS sentence".data
    severity := "warning"
    message := capsMsg
    suggested_replacement := ""
    context := text
    paragraph_index := paraIdx
    char_index := 1
    all_caps := true }

/-- Coloring step of the full-caps branch over `\b[A-Z]{2,}\b` matches:
color unclaimed ranges orange, emit nothing. -/
def capsColorStep (st : PState) (m : Nat × Nat) : PState :=
  if anyClaimed st.applied m.1 m.2 then st
  else claimColor st m.1 m.2 ⟨255, 165, 0⟩

/-- Issue appended per standalone uppercase token. -/
def mkCapsWordIssue (text : List Char) (paraIdx : Nat) (s e : Nat) : Issue :=
  { matched := slice text s e
    severity := "warning"
    message := capsMsg
    suggested_replacement := ""
    context := text
    paragraph_index := paraIdx
    char_index := s + 1
    all_caps := false }

/-- One iteration of the standalone `\b[A-Z]{3,}\b` loop. -/
def capsWordStep (paraIdx : Nat) (text : List Char) (st : PState)
    (m : Nat × Nat) : PState :=
  if anyClaimed st.applied m.1 m.2 then st
  else
    { claimColor st m.1 m.2 ⟨255, 165, 0⟩ with
      issues := st.issues ++ [mkCapsWordIssue text paraIdx m.1 m.2] }

/-- The FULL CAPS SENTENCE CHECK phase.  In the at-least-60-percent
branch the `if not any(r.get(...) ...)` guard encloses both the coloring
loop and the `results.append` of the synthetic issue: when an all-caps
issue for this paragraph already exists, nothing is colored and nothing
is appended.  The float comparison `len(caps_words)/len(words) >= 0.6`
is the rational `caps/words ≥ 3/5`. -/
def capsPhase (paraIdx : Nat) (text : List Char) (st : PState) : PState :=
  let words := capsWords text
  let caps := upperWords text
  if words.length ≠ 0 ∧ 3 * words.length ≤ 5 * caps.length then
    if st.issues.any (fun r => r.all_caps && r.paragraph_index == paraIdx) then st
    else
      let st1 := (scanToks text Char.isUpper 2).foldl capsColorStep st
      { st1 with issues := st1.issues ++ [allCapsIssue text paraIdx] }
  else
    (scanToks text Char.isUpper 3).foldl (capsWordStep paraIdx text) st

/-- Message of the regional spelling check. -/
def britMsg : String := "British spelling detected. Use American English."

/-- Issue appended per detected regional spelling; `matched` is the
source casing (`m.group()`), not the lowercased lookup key. -/
def mkBritIssue (text : List Char) (paraIdx : Nat) (s e : Nat) : Issue :=
  { matched := slice text s e
    severity := "warning"
    message := britMsg
    suggested_replacement := ""
    context := text
    paragraph_index := paraIdx
    char_index := s + 1
    all_caps := false }

/-- One iteration of the BRITISH SPELLING CHECK loop. -/
def britishStep (paraIdx : Nat) (text : List Char) (st : PState)
    (m : Nat × Nat) : PState :=
  if (britishLookup (lowerChars (slice text m.1 m.2))).isSome &&
      !anyClaimed st.applied m.1 m.2 then
    { claimColor st m.1 m.2 ⟨255, 165, 0⟩ with
      issues := st.issues ++ [mkBritIssue text paraIdx m.1 m.2] }
  else st

/-- The BRITISH SPELLING CHECK phase, over letters-plus-apostrophe
tokens. -/
def britishPhase (paraIdx : Nat) (text : List Char) (st : PState) : PState :=
  (scanToks text wordAposChar 1).foldl (britishStep paraIdx text) st

/-- Message of the dictionary spellcheck. -/
def dictMsg : String := "Word not recognized in American English dictionary."

/-- Python `word.isalpha()`: nonempty and entirely alphabetic. -/
def pyIsAlpha (w : List Char) : Bool := !w.isEmpty && w.all Char.isAlpha

/-- The rarity threshold `1e-6` of the dictionary check: the rational
`1 / 1000000`, built in reduced form so that kernel evaluation of the
comparison works. -/
def RARE_LIMIT : ℚ := ⟨1, 1000000, by norm_num, Nat.coprime_one_left _⟩

/-- Issue appended per unrecognized word. -/
def mkDictIssue (text : List Char) (paraIdx : Nat) (s e : Nat) : Issue :=
  { matched := slice text s e
    severity := "error"
    message := dictMsg
    suggested_replacement := ""
    context := text
    paragraph_index := paraIdx
    char_index := s + 1
    all_caps := false }

/-- One iteration of the AMERICAN ENGLISH SPELLCHECK loop: skip claimed
ranges, then non-alphabetic tokens, then frequent words. -/
def dictStep (freq : List Char → ℚ) (paraIdx : Nat) (text : List Char)
    (st : PState) (m : Nat × Nat) : PState :=
  if anyClaimed st.applied m.1 m.2 then st
  else if !pyIsAlpha (slice text m.1 m.2) then st
  else if freq (lowerChars (slice text m.1 m.2)) < RARE_LIMIT then
    { claimColor st m.1 m.2 ⟨255, 0, 0⟩ with
      issues := st.issues ++ [mkDictIssue text paraIdx m.1 m.2] }
  else st

/-- The AMERICAN ENGLISH SPELLCHECK phase; `freq` abstracts
`wordfreq.word_frequency(·, "en")`. -/
def dictPhase (freq : List Char → ℚ) (paraIdx : Nat) (text : List Char)
    (st : PState) : PState :=
  (scanToks text wordAposChar 1).foldl (dictStep freq paraIdx text) st

/-- Flat paragraph text: concatenation of the runs' texts
(`para.text`, per the run invariant of spec section 3). -/
def flatText (runs : List Run) : List Char := (runs.map Run.text).flatten

/-- Fresh per-paragraph state. -/
def initState (runs : List Run) : PState :=
  { runs := runs, applied := [], reported := [], issues := [], colored := [] }

/-- Python `not text.strip()`: all characters are whitespace. -/
def isBlank (t : List Char) : Bool := t.all Char.isWhitespace

/-- Process one paragraph: skip blank text, otherwise run the four
matcher phases in source order against one shared claim state. -/
def analyzeParaState (rules : List Rule) (freq : List Char → ℚ)
    (paraIdx : Nat) (runs : List Run) : PState :=
  let text := flatText runs
  if isBlank text then initState runs
  else
    dictPhase freq paraIdx text
      (britishPhase paraIdx text
        (capsPhase paraIdx text
          (rulesPhase paraIdx text rules (initState runs))))

/-- The observable per-paragraph result: mutated runs and issues. -/
def analyzePara (rules : List Rule) (freq : List Char → ℚ) (paraIdx : Nat)
    (runs : List Run) : List Run × List Issue :=
  let st := analyzeParaState rules freq paraIdx runs
  (st.runs, st.issues)

/-- Paragraph loop of `analyze_doc`, carrying the 1-based index. -/
def analyzeDocAux (rules : List Rule) (freq : List Char → ℚ) :
    Nat → List (List Run) → List (List Run) × List Issue
  | _, [] => ([], [])
  | idx, p :: ps =>
    let pr := analyzePara rules freq idx p
    let rest := analyzeDocAux rules freq (idx + 1) ps
    (pr.1 :: rest.1, pr.2 ++ rest.2)

/-- The whole engine `analyze_doc`: a document is its list of paragraphs,
each a list of runs; the result is the mutated document and the
aggregated issue list. -/
def analyzeDoc (rules : List Rule) (freq : List Char → ℚ)
    (doc : List (List Run)) : List (List Run) × List Issue :=
  analyzeDocAux rules freq 1 doc

/-- Offset `i` lies in the half-open range `m`. -/
def InRange (m : Nat × Nat) (i : Nat) : Prop := m.1 ≤ i ∧ i < m.2

instance (m : Nat × Nat) (i : Nat) : Decidable (InRange m i) := by
  unfold InRange; infer_instance

/-- The span-allocator invariant over a paragraph state: every offset of a
colored range is claimed, the colored ranges are pairwise disjoint as
offset sets, and every claimed offset is below `len` (the flat text
length). -/
def RangesOk (len : Nat) (st : PState) : Prop :=
  (∀ m ∈ st.colored, ∀ i, InRange m i → i ∈ st.applied) ∧
  List.Pairwise (fun a b => ∀ i, InRange a i → InRange b i → False) st.colored ∧
  (∀ i ∈ st.applied, i < len)

/-- Common shape of the caps-word, regional-spelling and dictionary loop
bodies: a state-independent acceptance test `ok` plus the claimed-offsets
test, then color-claim-report. -/
def genOkStep (ok : Nat × Nat → Bool) (mk : Nat × Nat → Issue) (c : RGB)
    (st : PState) (m : Nat × Nat) : PState :=
  if !anyClaimed st.applied m.1 m.2 && ok m then
    { claimColor st m.1 m.2 c with issues := st.issues ++ [mk m] }
  else st

end Styler

namespace Styler

/-- Membership in `rangeList s e` is exactly `s ≤ i < e`. -/
theorem mem_rangeList {s e i : Nat} : i ∈ rangeList s e ↔ s ≤ i ∧ i < e := by
  unfold rangeList
  rw [List.mem_range'_1]
  omega

/-- The claimed-range test succeeds exactly when some offset of the range
is already claimed. -/
theorem anyClaimed_true {A : List Nat} {s e : Nat} :
    anyClaimed A s e = true ↔ ∃ i, s ≤ i ∧ i < e ∧ i ∈ A := by
  simp only [anyClaimed, List.any_eq_true, List.contains, List.elem_iff]
  constructor
  · rintro ⟨i, hi, hm⟩
    exact ⟨i, (mem_rangeList.mp hi).1, (mem_rangeList.mp hi).2, hm⟩
  · rintro ⟨i, h1, h2, hm⟩
    exact ⟨i, mem_rangeList.mpr ⟨h1, h2⟩, hm⟩

/-- The claimed-range test fails exactly when the whole range is free. -/
theorem anyClaimed_false {A : List Nat} {s e : Nat} :
    anyClaimed A s e = false ↔ ∀ i, s ≤ i → i < e → i ∉ A := by
  constructor
  · intro h i hs he hm
    have ht : anyClaimed A s e = true := anyClaimed_true.mpr ⟨i, hs, he, hm⟩
    rw [h] at ht
    exact Bool.noConfusion ht
  · intro h
    cases hb : anyClaimed A s e
    · rfl
    · obtain ⟨i, hs, he, hm⟩ := anyClaimed_true.mp hb
      exact absurd hm (h i hs he)

/-- Claimed offsets entirely below the range do not change the test. -/
theorem anyClaimed_append {A B : List Nat} {s e : Nat} (h : ∀ j ∈ B, j < s) :
    anyClaimed (A ++ B) s e = anyClaimed A s e := by
  cases hb : anyClaimed A s e
  · rw [anyClaimed_false] at hb ⊢
    intro i hs he hm
    rcases List.mem_append.mp hm with h1 | h2
    · exact hb i hs he h1
    · have := h i h2
      omega
  · obtain ⟨i, hs, he, hm⟩ := anyClaimed_true.mp hb
    exact anyClaimed_true.mpr ⟨i, hs, he, List.mem_append.mpr (Or.inl hm)⟩

/-- A class run never exceeds the remaining text. -/
theorem runLen_le (cls : Char → Bool) : ∀ l : List Char, runLen cls l ≤ l.length
  | [] => by simp [runLen]
  | c :: cs => by
    simp only [runLen, List.length_cons]
    split
    · exact Nat.succ_le_succ (runLen_le cls cs)
    · omega

/-- A successful backtracking search returns a length between `k` and the
greedy run length. -/
theorem backLen_some {t : List Char} {p k : Nat} :
    ∀ {l0 l : Nat}, backLen t p k l0 = some l → k ≤ l ∧ l ≤ l0
  | 0, l, h => by
    simp only [backLen] at h
    split at h
    · rename_i hc
      injection h with h'
      subst h'
      simp only [Bool.and_eq_true, beq_iff_eq] at hc
      omega
    · exact absurd h (by simp)
  | l0 + 1, l, h => by
    simp only [backLen] at h
    split at h
    · exact absurd h (by simp)
    · split at h
      · injection h with h'
        subst h'
        rename_i hk _
        omega
      · have := backLen_some h
        omega

/-- A successful anchored token match has length at least `k` and stays
inside the text. -/
theorem matchTokAt_some {t : List Char} {cls : Char → Bool} {k p l : Nat}
    (h : matchTokAt t cls k p = some l) : k ≤ l ∧ l ≤ t.length - p := by
  unfold matchTokAt at h
  split at h
  · have h2 := backLen_some h
    have h3 := runLen_le cls (t.drop p)
    rw [List.length_drop] at h3
    omega
  · exact absurd h (by simp)

/-- Every token the scanner emits starts at or after the scan position. -/
theorem scanToksAux_start_ge {t : List Char} {cls : Char → Bool} {k : Nat} :
    ∀ {fuel p : Nat} {m : Nat × Nat}, m ∈ scanToksAux t cls k fuel p → p ≤ m.1
  | 0, p, m, h => by simp [scanToksAux] at h
  | fuel + 1, p, m, h => by
    simp only [scanToksAux] at h
    split at h
    · simp at h
    · split at h
      · rename_i l hl
        rcases List.mem_cons.mp h with h1 | h2
        · subst h1
          exact Nat.le_refl p
        · have := scanToksAux_start_ge h2
          omega
      · have := scanToksAux_start_ge h
        omega

/-- Every token the scanner emits ends inside the text. -/
theorem scanToksAux_bound {t : List Char} {cls : Char → Bool} {k : Nat} :
    ∀ {fuel p : Nat} {m : Nat × Nat}, m ∈ scanToksAux t cls k fuel p →
      m.2 ≤ t.length
  | 0, p, m, h => by simp [scanToksAux] at h
  | fuel + 1, p, m, h => by
    simp only [scanToksAux] at h
    split at h
    · simp at h
    · rename_i hp
      split at h
      · rename_i l hl
        rcases List.mem_cons.mp h with h1 | h2
        · subst h1
          have := matchTokAt_some hl
          simp only [Nat.not_lt] at hp
          omega
        · exact scanToksAux_bound h2
      · exact scanToksAux_bound h

/-- The scanner's tokens are emitted left to right without overlap. -/
theorem scanToksAux_sorted {t : List Char} {cls : Char → Bool} {k : Nat} :
    ∀ {fuel p : Nat},
      List.Pairwise (fun a b : Nat × Nat => a.2 ≤ b.1) (scanToksAux t cls k fuel p)
  | 0, p => by simp [scanToksAux]
  | fuel + 1, p => by
    simp only [scanToksAux]
    split
    · exact List.Pairwise.nil
    · split
      · rename_i l hl
        refine List.Pairwise.cons ?_ scanToksAux_sorted
        intro b hb
        exact scanToksAux_start_ge hb
      · exact scanToksAux_sorted

/-- Tokens of `scanToks` end inside the text. -/
theorem scanToks_bound {t : List Char} {cls : Char → Bool} {k : Nat}
    {m : Nat × Nat} (h : m ∈ scanToks t cls k) : m.2 ≤ t.length :=
  scanToksAux_bound h

/-- Tokens of `scanToks` are pairwise ordered and disjoint. -/
theorem scanToks_sorted {t : List Char} {cls : Char → Bool} {k : Nat} :
    List.Pairwise (fun a b : Nat × Nat => a.2 ≤ b.1) (scanToks t cls k) :=
  scanToksAux_sorted

/-- A successful anchored literal match fits inside the text. -/
theorem matchPatAt_true {t pat : List Char} {p : Nat}
    (h : matchPatAt t pat p = true) : pat.length ≤ t.length - p := by
  unfold matchPatAt at h
  simp only [Bool.and_eq_true, beq_iff_eq] at h
  have hlen := congrArg List.length h.2
  simp only [lowerChars, slice, List.length_map, List.length_take,
    List.length_drop] at hlen
  omega

/-- Every match the literal scanner emits ends inside the text. -/
theorem scanPatAux_bound {t pat : List Char} :
    ∀ {fuel p : Nat} {m : Nat × Nat}, m ∈ scanPatAux t pat fuel p →
      m.2 ≤ t.length
  | 0, p, m, h => by simp [scanPatAux] at h
  | fuel + 1, p, m, h => by
    simp only [scanPatAux] at h
    split at h
    · simp at h
    · rename_i hp
      split at h
      · rename_i hmt
        rcases List.mem_cons.mp h with h1 | h2
        · subst h1
          have := matchPatAt_true hmt
          simp only [Nat.not_lt] at hp
          omega
        · exact scanPatAux_bound h2
      · exact scanPatAux_bound h

/-- Matches of `scanPat` end inside the text. -/
theorem scanPat_bound {t pat : List Char} {m : Nat × Nat}
    (h : m ∈ scanPat t pat) : m.2 ≤ t.length :=
  scanPatAux_bound h

end Styler

namespace Styler

/-- Fold preservation of a predicate over paragraph states. -/
theorem foldl_pres {α : Type} {f : PState → α → PState} {P : PState → Prop} :
    ∀ {l : List α} {st : PState},
      (∀ st' a, a ∈ l → P st' → P (f st' a)) → P st → P (l.foldl f st)
  | [], _, _, hst => hst
  | a :: l, st, h, hst => by
    simp only [List.foldl_cons]
    exact foldl_pres (fun st' b hb => h st' b (List.mem_cons_of_mem a hb))
      (h st a (List.mem_cons_self a l) hst)

/-- The invariant only reads the `applied` and `colored` fields. -/
theorem rangesOk_fields {len : Nat} {st st' : PState}
    (ha : st'.applied = st.applied) (hc : st'.colored = st.colored)
    (h : RangesOk len st) : RangesOk len st' := by
  obtain ⟨h1, h2, h3⟩ := h
  refine ⟨?_, ?_, ?_⟩
  · rw [ha, hc]
    exact h1
  · rw [hc]
    exact h2
  · rw [ha]
    exact h3

/-- Claiming a fully free range inside the text preserves the span
allocator invariant. -/
theorem rangesOk_claimColor {len : Nat} {st : PState} {s e : Nat} {c : RGB}
    (hcl : anyClaimed st.applied s e = false) (he : e ≤ len)
    (h : RangesOk len st) : RangesOk len (claimColor st s e c) := by
  obtain ⟨hcov, hpw, hbd⟩ := h
  refine ⟨?_, ?_, ?_⟩
  · intro m hm i hi
    simp only [claimColor] at hm ⊢
    rcases List.mem_append.mp hm with h1 | h2
    · exact List.mem_append.mpr (Or.inl (hcov m h1 i hi))
    · simp only [List.mem_singleton] at h2
      subst h2
      exact List.mem_append.mpr (Or.inr (mem_rangeList.mpr ⟨hi.1, hi.2⟩))
  · simp only [claimColor]
    rw [List.pairwise_append]
    refine ⟨hpw, List.pairwise_singleton _ _, ?_⟩
    intro a ha b hb i hia hib
    simp only [List.mem_singleton] at hb
    subst hb
    exact anyClaimed_false.mp hcl i hib.1 hib.2 (hcov a ha i hia)
  · intro i hi
    simp only [claimColor] at hi
    rcases List.mem_append.mp hi with h1 | h2
    · exact hbd i h1
    · have := mem_rangeList.mp h2
      omega

/-- One rule-loop iteration preserves the span allocator invariant. -/
theorem rangesOk_ruleMatchStep {len paraIdx : Nat} {text : List Char}
    {r : Rule} {st : PState} {m : Nat × Nat} (hm : m.2 ≤ len)
    (h : RangesOk len st) : RangesOk len (ruleMatchStep paraIdx text r st m) := by
  unfold ruleMatchStep
  split
  · exact h
  · split
    · exact h
    · rename_i hcl _
      have hcl' : anyClaimed st.applied m.1 m.2 = false :=
        Bool.of_not_eq_true hcl
      exact rangesOk_fields rfl rfl
        (rangesOk_claimColor (c := severityColor r.severity) hcl' hm h)

/-- One caps-coloring iteration preserves the invariant. -/
theorem rangesOk_capsColorStep {len : Nat} {st : PState} {m : Nat × Nat}
    (hm : m.2 ≤ len) (h : RangesOk len st) :
    RangesOk len (capsColorStep st m) := by
  unfold capsColorStep
  split
  · exact h
  · rename_i hcl
    exact rangesOk_claimColor (c := ⟨255, 165, 0⟩) (Bool.of_not_eq_true hcl) hm h

/-- One standalone-caps-word iteration preserves the invariant. -/
theorem rangesOk_capsWordStep {len paraIdx : Nat} {text : List Char}
    {st : PState} {m : Nat × Nat} (hm : m.2 ≤ len) (h : RangesOk len st) :
    RangesOk len (capsWordStep paraIdx text st m) := by
  unfold capsWordStep
  split
  · exact h
  · rename_i hcl
    exact rangesOk_fields rfl rfl
      (rangesOk_claimColor (c := ⟨255, 165, 0⟩) (Bool.of_not_eq_true hcl) hm h)

/-- One regional-spelling iteration preserves the invariant. -/
theorem rangesOk_britishStep {len paraIdx : Nat} {text : List Char}
    {st : PState} {m : Nat × Nat} (hm : m.2 ≤ len) (h : RangesOk len st) :
    RangesOk len (britishStep paraIdx text st m) := by
  unfold britishStep
  split
  · rename_i hcond
    simp only [Bool.and_eq_true, Bool.not_eq_true'] at hcond
    exact rangesOk_fields rfl rfl
      (rangesOk_claimColor (c := ⟨255, 165, 0⟩) hcond.2 hm h)
  · exact h

/-- One dictionary iteration preserves the invariant. -/
theorem rangesOk_dictStep {len paraIdx : Nat} {freq : List Char → ℚ}
    {text : List Char} {st : PState} {m : Nat × Nat} (hm : m.2 ≤ len)
    (h : RangesOk len st) : RangesOk len (dictStep freq paraIdx text st m) := by
  unfold dictStep
  split
  · exact h
  · rename_i hcl
    split
    · exact h
    · split
      · exact rangesOk_fields rfl rfl
          (rangesOk_claimColor (c := ⟨255, 0, 0⟩) (Bool.of_not_eq_true hcl) hm h)
      · exact h

/-- The rule phase preserves the invariant at the flat text length. -/
theorem rangesOk_rulesPhase {paraIdx : Nat} {text : List Char}
    {rules : List Rule} {st : PState} (h : RangesOk text.length st) :
    RangesOk text.length (rulesPhase paraIdx text rules st) := by
  unfold rulesPhase
  refine foldl_pres (fun st' r _ hst' => ?_) h
  unfold ruleApply
  split
  · exact hst'
  · refine foldl_pres (fun st'' m hm hst'' => ?_) hst'
    exact rangesOk_ruleMatchStep (scanPat_bound hm) hst''

/-- The caps phase preserves the invariant. -/
theorem rangesOk_capsPhase {paraIdx : Nat} {text : List Char} {st : PState}
    (h : RangesOk text.length st) :
    RangesOk text.length (capsPhase paraIdx text st) := by
  simp only [capsPhase]
  split
  · split
    · exact h
    · refine rangesOk_fields rfl rfl ?_
      refine foldl_pres (fun st' m hm hst' => ?_) h
      exact rangesOk_capsColorStep (scanToks_bound hm) hst'
  · refine foldl_pres (fun st' m hm hst' => ?_) h
    exact rangesOk_capsWordStep (scanToks_bound hm) hst'

/-- The regional spelling phase preserves the invariant. -/
theorem rangesOk_britishPhase {paraIdx : Nat} {text : List Char} {st : PState}
    (h : RangesOk text.length st) :
    RangesOk text.length (britishPhase paraIdx text st) := by
  unfold britishPhase
  refine foldl_pres (fun st' m hm hst' => ?_) h
  exact rangesOk_britishStep (scanToks_bound hm) hst'

/-- The dictionary phase preserves the invariant. -/
theorem rangesOk_dictPhase {freq : List Char → ℚ} {paraIdx : Nat}
    {text : List Char} {st : PState} (h : RangesOk text.length st) :
    RangesOk text.length (dictPhase freq paraIdx text st) := by
  unfold dictPhase
  refine foldl_pres (fun st' m hm hst' => ?_) h
  exact rangesOk_dictStep (scanToks_bound hm) hst'

/-- A fresh paragraph state satisfies the invariant. -/
theorem rangesOk_init {len : Nat} {runs : List Run} :
    RangesOk len (initState runs) := by
  refine ⟨?_, ?_, ?_⟩ <;> simp [initState]

/-- The whole per-paragraph pipeline satisfies the span allocator
invariant at the paragraph's flat text length. -/
theorem rangesOk_analyzePara (rules : List Rule) (freq : List Char → ℚ)
    (paraIdx : Nat) (runs : List Run) :
    RangesOk (flatText runs).length (analyzeParaState rules freq paraIdx runs) := by
  simp only [analyzeParaState]
  split
  · exact rangesOk_init
  · exact rangesOk_dictPhase (rangesOk_britishPhase (rangesOk_capsPhase
      (rangesOk_rulesPhase rangesOk_init)))

end Styler

namespace Styler

/-- C1 — Offset disjointness: within a single paragraph, the ranges
colored by the engine (across all four matchers) are pairwise disjoint as
sets of character offsets, and every offset of a colored range is claimed
in the allocator, so a colored range is always colored in full — a later
candidate match that intersects a claimed offset is suppressed whole,
never truncated. -/
theorem C1_offset_disjoint (rules : List Rule) (freq : List Char → ℚ)
    (paraIdx : Nat) (runs : List Run) :
    List.Pairwise (fun a b => ∀ i, InRange a i → InRange b i → False)
      (analyzeParaState rules freq paraIdx runs).colored ∧
    ∀ m ∈ (analyzeParaState rules freq paraIdx runs).colored, ∀ i,
      InRange m i → i ∈ (analyzeParaState rules freq paraIdx runs).applied := by
  have h := rangesOk_analyzePara rules freq paraIdx runs
  exact ⟨h.2.1, h.1⟩

/-- Witness for C1 at a concrete input: the rule match on "foo" colors
the range `(0, 3)`, and the theorem's coverage conjunct puts offset 1 in
the claimed set. -/
theorem C1_offset_disjoint_witness :
    (1 : Nat) ∈ (analyzeParaState
      [⟨"foo".data, none, "use bar", "warning", "flag"⟩] (fun _ => 1) 1
      [⟨"foo bar".data, none⟩]).applied :=
  (C1_offset_disjoint [⟨"foo".data, none, "use bar", "warning", "flag"⟩]
      (fun _ => 1) 1 [⟨"foo bar".data, none⟩]).2
    (0, 3) (by decide) 1 (by decide)

/-- The character-to-run index is total on the flat text. -/
theorem charToRun_total :
    ∀ (runs : List Run) (i : Nat), i < (flatText runs).length →
      (charToRun runs i).isSome = true
  | [], i, h => by simp [flatText] at h
  | r :: rs, i, h => by
    simp only [charToRun]
    split
    · rfl
    · rename_i hlt
      simp only [flatText, List.map_cons, List.flatten_cons,
        List.length_append] at h
      have hrec : i - r.text.length < (flatText rs).length := by
        simp only [flatText]
        omega
      have := charToRun_total rs (i - r.text.length) hrec
      cases hob : charToRun rs (i - r.text.length)
      · rw [hob] at this
        exact absurd this (by simp)
      · simp [hob]

/-- C9 — char-to-run lookup totality: under the run invariant (the flat
text is the concatenation of the runs' texts, which holds by construction
here), every offset the engine claims — and it claims exactly the offsets
it colors, by C1's coverage — lies below the flat text length, and every
such offset is a key of the `char_to_run` map, so the lookup
`char_to_run[i]` never fails. -/
theorem C9_char_lookup_total (rules : List Rule) (freq : List Char → ℚ)
    (paraIdx : Nat) (runs : List Run) :
    (∀ i ∈ (analyzeParaState rules freq paraIdx runs).applied,
      i < (flatText runs).length) ∧
    ∀ i, i < (flatText runs).length → (charToRun runs i).isSome = true := by
  have h := rangesOk_analyzePara rules freq paraIdx runs
  exact ⟨h.2.2, fun i hi => charToRun_total runs i hi⟩

/-- Witness for C9 at a concrete input: offset 4 is claimed by the match
on "foo", the theorem bounds it by the text length, and the lookup at
offset 0 is a hit. -/
theorem C9_char_lookup_total_witness :
    (0 : Nat) < (flatText [⟨"foo bar".data, none⟩]).length ∧
    (charToRun [⟨"foo bar".data, none⟩] 0).isSome = true := by
  refine ⟨by decide, ?_⟩
  exact (C9_char_lookup_total [⟨"foo".data, none, "use bar", "warning", "flag"⟩]
    (fun _ => 1) 1 [⟨"foo bar".data, none⟩]).2 0 (by decide)

/-- Recoloring one offset's run never changes any run's text. -/
theorem colorChar_texts :
    ∀ (runs : List Run) (i : Nat) (c : RGB),
      (colorChar runs i c).map Run.text = runs.map Run.text
  | [], _, _ => rfl
  | r :: rs, i, c => by
    simp only [colorChar]
    split
    · simp
    · simp only [List.map_cons]
      rw [colorChar_texts rs (i - r.text.length) c]

/-- Folding `colorChar` over any offset list never changes run texts. -/
theorem foldl_colorChar_texts (c : RGB) :
    ∀ (l : List Nat) (runs : List Run),
      ((l.foldl (fun rs i => colorChar rs i c) runs).map Run.text) =
        runs.map Run.text
  | [], _ => rfl
  | i :: l, runs => by
    simp only [List.foldl_cons]
    rw [foldl_colorChar_texts c l, colorChar_texts]

/-- Coloring a range never changes run texts. -/
theorem colorRange_texts {runs : List Run} {s e : Nat} {c : RGB} :
    (colorRange runs s e c).map Run.text = runs.map Run.text :=
  foldl_colorChar_texts c (rangeList s e) runs

/-- Claiming a range never changes run texts. -/
theorem claimColor_texts {st : PState} {s e : Nat} {c : RGB} :
    (claimColor st s e c).runs.map Run.text = st.runs.map Run.text :=
  colorRange_texts

/-- One rule-loop iteration never changes run texts. -/
theorem texts_ruleMatchStep {paraIdx : Nat} {text : List Char} {r : Rule}
    {st : PState} {m : Nat × Nat} :
    (ruleMatchStep paraIdx text r st m).runs.map Run.text =
      st.runs.map Run.text := by
  unfold ruleMatchStep
  split
  · rfl
  · split
    · rfl
    · exact claimColor_texts

/-- One caps-coloring iteration never changes run texts. -/
theorem texts_capsColorStep {st : PState} {m : Nat × Nat} :
    (capsColorStep st m).runs.map Run.text = st.runs.map Run.text := by
  unfold capsColorStep
  split
  · rfl
  · exact claimColor_texts

/-- One standalone-caps-word iteration never changes run texts. -/
theorem texts_capsWordStep {paraIdx : Nat} {text : List Char} {st : PState}
    {m : Nat × Nat} :
    (capsWordStep paraIdx text st m).runs.map Run.text =
      st.runs.map Run.text := by
  unfold capsWordStep
  split
  · rfl
  · exact claimColor_texts

/-- One regional-spelling iteration never changes run texts. -/
theorem texts_britishStep {paraIdx : Nat} {text : List Char} {st : PState}
    {m : Nat × Nat} :
    (britishStep paraIdx text st m).runs.map Run.text =
      st.runs.map Run.text := by
  unfold britishStep
  split
  · exact claimColor_texts
  · rfl

/-- One dictionary iteration never changes run texts. -/
theorem texts_dictStep {freq : List Char → ℚ} {paraIdx : Nat}
    {text : List Char} {st : PState} {m : Nat × Nat} :
    (dictStep freq paraIdx text st m).runs.map Run.text =
      st.runs.map Run.text := by
  unfold dictStep
  split
  · rfl
  · split
    · rfl
    · split
      · exact claimColor_texts
      · rfl

/-- The whole per-paragraph pipeline never changes run texts. -/
theorem texts_analyzePara (rules : List Rule) (freq : List Char → ℚ)
    (paraIdx : Nat) (runs : List Run) :
    (analyzeParaState rules freq paraIdx runs).runs.map Run.text =
      runs.map Run.text := by
  simp only [analyzeParaState]
  split
  · rfl
  · have hP : ∀ st : PState,
        st.runs.map Run.text = runs.map Run.text →
        (dictPhase freq paraIdx (flatText runs)
          (britishPhase paraIdx (flatText runs)
            (capsPhase paraIdx (flatText runs) st))).runs.map Run.text =
          runs.map Run.text := by
      intro st hst
      unfold dictPhase britishPhase
      refine foldl_pres
        (P := fun st' => st'.runs.map Run.text = runs.map Run.text)
        (fun st' m _ h' => ?_) ?_
      · exact texts_dictStep.trans h'
      · refine foldl_pres
          (P := fun st' => st'.runs.map Run.text = runs.map Run.text)
          (fun st' m _ h' => ?_) ?_
        · exact texts_britishStep.trans h'
        · simp only [capsPhase]
          split
          · split
            · exact hst
            · exact foldl_pres
                (P := fun st' => st'.runs.map Run.text = runs.map Run.text)
                (fun st' m _ h' => texts_capsColorStep.trans h') hst
          · refine foldl_pres
              (P := fun st' => st'.runs.map Run.text = runs.map Run.text)
              (fun st' m _ h' => ?_) hst
            exact texts_capsWordStep.trans h'
    refine hP _ ?_
    unfold rulesPhase
    refine foldl_pres
      (P := fun st' => st'.runs.map Run.text = runs.map Run.text)
      (fun st' r _ h' => ?_) rfl
    unfold ruleApply
    split
    · exact h'
    · refine foldl_pres
        (P := fun st'' => st''.runs.map Run.text = runs.map Run.text)
        (fun st'' m _ h'' => ?_) h'
      exact texts_ruleMatchStep.trans h''

/-- The paragraph loop preserves the texts of every paragraph's runs. -/
theorem texts_analyzeDocAux (rules : List Rule) (freq : List Char → ℚ) :
    ∀ (idx : Nat) (doc : List (List Run)),
      (analyzeDocAux rules freq idx doc).1.map (fun p => p.map Run.text) =
        doc.map (fun p => p.map Run.text)
  | _, [] => rfl
  | idx, p :: ps => by
    simp only [analyzeDocAux, List.map_cons, List.cons.injEq]
    exact ⟨texts_analyzePara rules freq idx p,
      texts_analyzeDocAux rules freq (idx + 1) ps⟩

/-- C2 — Text preservation: for every document, analysis leaves the text
of every run of every paragraph unchanged (hence every paragraph's flat
text is unchanged); since a `Run` consists of its text and its font
color, the font color is the only run attribute the engine can mutate. -/
theorem C2_text_preservation (rules : List Rule) (freq : List Char → ℚ)
    (doc : List (List Run)) :
    (analyzeDoc rules freq doc).1.map (fun p => p.map Run.text) =
      doc.map (fun p => p.map Run.text) :=
  texts_analyzeDocAux rules freq 1 doc

end Styler

namespace Styler

/-- The standalone-caps-word step is an instance of the generic step. -/
theorem capsWordStep_eq_gen {paraIdx : Nat} {text : List Char} {st : PState}
    {m : Nat × Nat} :
    capsWordStep paraIdx text st m =
      genOkStep (fun _ => true)
        (fun m' => mkCapsWordIssue text paraIdx m'.1 m'.2) ⟨255, 165, 0⟩ st m := by
  unfold capsWordStep genOkStep
  cases hb : anyClaimed st.applied m.1 m.2 <;> simp [hb]

/-- The regional-spelling step is an instance of the generic step. -/
theorem britishStep_eq_gen {paraIdx : Nat} {text : List Char} {st : PState}
    {m : Nat × Nat} :
    britishStep paraIdx text st m =
      genOkStep
        (fun m' => (britishLookup (lowerChars (slice text m'.1 m'.2))).isSome)
        (fun m' => mkBritIssue text paraIdx m'.1 m'.2) ⟨255, 165, 0⟩ st m := by
  unfold britishStep genOkStep
  cases hb : anyClaimed st.applied m.1 m.2 <;>
    cases hs : (britishLookup (lowerChars (slice text m.1 m.2))).isSome <;>
      simp [hb, hs]

/-- The dictionary step is an instance of the generic step. -/
theorem dictStep_eq_gen {freq : List Char → ℚ} {paraIdx : Nat}
    {text : List Char} {st : PState} {m : Nat × Nat} :
    dictStep freq paraIdx text st m =
      genOkStep
        (fun m' => pyIsAlpha (slice text m'.1 m'.2) &&
          decide (freq (lowerChars (slice text m'.1 m'.2)) < RARE_LIMIT))
        (fun m' => mkDictIssue text paraIdx m'.1 m'.2) ⟨255, 0, 0⟩ st m := by
  unfold dictStep genOkStep
  by_cases hf : freq (lowerChars (slice text m.1 m.2)) < RARE_LIMIT <;>
    cases hb : anyClaimed st.applied m.1 m.2 <;>
      cases ha : pyIsAlpha (slice text m.1 m.2) <;>
        simp [hb, ha, hf]

/-- Folding the generic step over pairwise-ordered matches appends
exactly the issues of the matches that are free with respect to the
initial claim set and pass the pure acceptance test. -/
theorem genOkStep_foldl {ok : Nat × Nat → Bool} {mk : Nat × Nat → Issue}
    {c : RGB} :
    ∀ {ms : List (Nat × Nat)} {st : PState},
      List.Pairwise (fun a b : Nat × Nat => a.2 ≤ b.1) ms →
      (ms.foldl (genOkStep ok mk c) st).issues =
        st.issues ++ ms.filterMap (fun m =>
          if !anyClaimed st.applied m.1 m.2 && ok m then some (mk m) else none)
  | [], st, _ => by simp
  | m :: ms, st, hpw => by
    obtain ⟨hhead, htail⟩ := List.pairwise_cons.mp hpw
    simp only [List.foldl_cons, List.filterMap_cons]
    cases hcond : (!anyClaimed st.applied m.1 m.2 && ok m)
    · have hstep : genOkStep ok mk c st m = st := by
        simp [genOkStep, hcond]
      rw [hstep, genOkStep_foldl htail]
      simp
    · have hI : (genOkStep ok mk c st m).issues = st.issues ++ [mk m] := by
        simp [genOkStep, claimColor, hcond]
      have hA : (genOkStep ok mk c st m).applied =
          st.applied ++ rangeList m.1 m.2 := by
        simp [genOkStep, claimColor, hcond]
      rw [genOkStep_foldl htail]
      simp only [hI, hA]
      have hfm : ms.filterMap (fun m' =>
            if !anyClaimed (st.applied ++ rangeList m.1 m.2) m'.1 m'.2 && ok m'
            then some (mk m') else none) =
          ms.filterMap (fun m' =>
            if !anyClaimed st.applied m'.1 m'.2 && ok m'
            then some (mk m') else none) := by
        apply List.filterMap_congr
        intro m' hm'
        have h1 : m.2 ≤ m'.1 := hhead m' hm'
        rw [anyClaimed_append]
        intro j hj
        have := mem_rangeList.mp hj
        omega
      rw [hfm]
      simp

/-- The caps-coloring step never touches the issue list. -/
theorem capsColorStep_issues {st : PState} {m : Nat × Nat} :
    (capsColorStep st m).issues = st.issues := by
  unfold capsColorStep
  split
  · rfl
  · rfl

/-- The caps-coloring fold never touches the issue list. -/
theorem foldl_capsColor_issues :
    ∀ {ms : List (Nat × Nat)} {st : PState},
      (ms.foldl capsColorStep st).issues = st.issues
  | [], _ => rfl
  | m :: ms, st => by
    simp only [List.foldl_cons]
    rw [foldl_capsColor_issues, capsColorStep_issues]

/-- In the at-least-60-percent-caps branch, when no all-caps issue for
this paragraph exists yet, the caps phase appends exactly the one
synthetic whole-paragraph issue, however many ranges it colors. -/
theorem capsPhase_high_issues {paraIdx : Nat} {text : List Char} {st : PState}
    (hg : st.issues.any (fun r => r.all_caps && r.paragraph_index == paraIdx) =
      false)
    (h0 : (capsWords text).length ≠ 0)
    (h6 : 3 * (capsWords text).length ≤ 5 * (upperWords text).length) :
    (capsPhase paraIdx text st).issues = st.issues ++ [allCapsIssue text paraIdx] := by
  simp only [capsPhase]
  rw [if_pos ⟨h0, h6⟩, if_neg (by rw [hg]; exact Bool.false_ne_true)]
  show ((scanToks text Char.isUpper 2).foldl capsColorStep st).issues ++
      [allCapsIssue text paraIdx] = st.issues ++ [allCapsIssue text paraIdx]
  rw [foldl_capsColor_issues]

/-- A rule-loop iteration only ever appends issues with `all_caps` false. -/
theorem ruleMatchStep_allcaps {paraIdx : Nat} {text : List Char} {r : Rule}
    {st : PState} {m : Nat × Nat}
    (h : ∀ ι ∈ st.issues, ι.all_caps = false) :
    ∀ ι ∈ (ruleMatchStep paraIdx text r st m).issues, ι.all_caps = false := by
  unfold ruleMatchStep
  split
  · exact h
  · split
    · exact h
    · intro ι hι
      rcases List.mem_append.mp hι with h1 | h2
      · exact h ι h1
      · simp only [List.mem_singleton] at h2
        subst h2
        rfl

/-- The rule phase only ever appends issues with `all_caps` false. -/
theorem rulesPhase_allcaps {paraIdx : Nat} {text : List Char}
    {rules : List Rule} {st : PState}
    (h : ∀ ι ∈ st.issues, ι.all_caps = false) :
    ∀ ι ∈ (rulesPhase paraIdx text rules st).issues, ι.all_caps = false := by
  unfold rulesPhase
  refine foldl_pres (P := fun st' => ∀ ι ∈ st'.issues, ι.all_caps = false)
    (fun st' r _ h' => ?_) h
  unfold ruleApply
  split
  · exact h'
  · refine foldl_pres (P := fun st'' => ∀ ι ∈ st''.issues, ι.all_caps = false)
      (fun st'' m _ h'' => ?_) h'
    exact ruleMatchStep_allcaps h''

/-- A state whose issues all have `all_caps` false passes the caps
phase's prior-issue guard. -/
theorem no_allcaps_guard {paraIdx : Nat} {st : PState}
    (h : ∀ ι ∈ st.issues, ι.all_caps = false) :
    st.issues.any (fun r => r.all_caps && r.paragraph_index == paraIdx) =
      false := by
  cases hb : st.issues.any (fun r => r.all_caps && r.paragraph_index == paraIdx)
  · rfl
  · obtain ⟨ι, hι, hcond⟩ := List.any_eq_true.mp hb
    simp only [Bool.and_eq_true] at hcond
    rw [h ι hι] at hcond
    exact Bool.noConfusion hcond.1

/-- In the below-60-percent branch, the caps phase appends exactly one
issue per uppercase token of length at least 3 whose range is free. -/
theorem capsPhase_low_issues {paraIdx : Nat} {text : List Char} {st : PState}
    (h : ¬((capsWords text).length ≠ 0 ∧
      3 * (capsWords text).length ≤ 5 * (upperWords text).length)) :
    (capsPhase paraIdx text st).issues = st.issues ++
      (scanToks text Char.isUpper 3).filterMap (fun m =>
        if !anyClaimed st.applied m.1 m.2
        then some (mkCapsWordIssue text paraIdx m.1 m.2) else none) := by
  simp only [capsPhase]
  rw [if_neg h]
  have hfun : capsWordStep paraIdx text =
      genOkStep (fun _ => true)
        (fun m' => mkCapsWordIssue text paraIdx m'.1 m'.2) ⟨255, 165, 0⟩ :=
    funext fun _ => funext fun _ => capsWordStep_eq_gen
  rw [hfun, genOkStep_foldl scanToks_sorted]
  simp only [Bool.and_true]

/-- The regional spelling phase appends exactly one issue per
letters-plus-apostrophe token whose lowercase form is a table key and
whose range is free. -/
theorem britishPhase_issues {paraIdx : Nat} {text : List Char} {st : PState} :
    (britishPhase paraIdx text st).issues = st.issues ++
      (scanToks text wordAposChar 1).filterMap (fun m =>
        if !anyClaimed st.applied m.1 m.2 &&
            (britishLookup (lowerChars (slice text m.1 m.2))).isSome
        then some (mkBritIssue text paraIdx m.1 m.2) else none) := by
  unfold britishPhase
  have hfun : britishStep paraIdx text =
      genOkStep
        (fun m' => (britishLookup (lowerChars (slice text m'.1 m'.2))).isSome)
        (fun m' => mkBritIssue text paraIdx m'.1 m'.2) ⟨255, 165, 0⟩ :=
    funext fun _ => funext fun _ => britishStep_eq_gen
  rw [hfun, genOkStep_foldl scanToks_sorted]

/-- The dictionary phase appends exactly one issue per
letters-plus-apostrophe token whose range is free, which is purely
alphabetic, and whose lowercase frequency is strictly below the rarity
threshold. -/
theorem dictPhase_issues {freq : List Char → ℚ} {paraIdx : Nat}
    {text : List Char} {st : PState} :
    (dictPhase freq paraIdx text st).issues = st.issues ++
      (scanToks text wordAposChar 1).filterMap (fun m =>
        if !anyClaimed st.applied m.1 m.2 &&
            (pyIsAlpha (slice text m.1 m.2) &&
              decide (freq (lowerChars (slice text m.1 m.2)) < RARE_LIMIT))
        then some (mkDictIssue text paraIdx m.1 m.2) else none) := by
  unfold dictPhase
  have hfun : dictStep freq paraIdx text =
      genOkStep
        (fun m' => pyIsAlpha (slice text m'.1 m'.2) &&
          decide (freq (lowerChars (slice text m'.1 m'.2)) < RARE_LIMIT))
        (fun m' => mkDictIssue text paraIdx m'.1 m'.2) ⟨255, 0, 0⟩ :=
    funext fun _ => funext fun _ => dictStep_eq_gen
  rw [hfun, genOkStep_foldl scanToks_sorted]

end Styler

namespace Styler

/-- C4 — Caps heuristic threshold: when the alphabetic tokens of length
at least 2 are at least 60 percent fully uppercase and no all-caps issue
for this paragraph exists yet — the only source of such issues is this
very branch, so, by the third conjunct, the state the caps phase receives
from the rule phase in the pipeline always satisfies this — the caps
phase emits exactly one synthetic issue — match "ALL CAPS sentence",
severity "warning", char_index fixed at 1 — regardless of how many
uppercase spans it colors; below the threshold it instead emits one
issue per whole-word uppercase token of length at least 3 whose offsets
are unclaimed, at the token's 1-based start offset, and no synthetic
whole-paragraph issue. -/
theorem C4_caps_threshold (paraIdx : Nat) (text : List Char) (st : PState) :
    (st.issues.any (fun r => r.all_caps && r.paragraph_index == paraIdx) =
        false →
      (capsWords text).length ≠ 0 →
      3 * (capsWords text).length ≤ 5 * (upperWords text).length →
      (capsPhase paraIdx text st).issues =
        st.issues ++ [allCapsIssue text paraIdx] ∧
      (allCapsIssue text paraIdx).matched = "ALL CAPS sentence".data ∧
      (allCapsIssue text paraIdx).severity = "warning" ∧
      (allCapsIssue text paraIdx).char_index = 1) ∧
    (¬((capsWords text).length ≠ 0 ∧
        3 * (capsWords text).length ≤ 5 * (upperWords text).length) →
      (capsPhase paraIdx text st).issues = st.issues ++
        (scanToks text Char.isUpper 3).filterMap (fun m =>
          if !anyClaimed st.applied m.1 m.2
          then some (mkCapsWordIssue text paraIdx m.1 m.2) else none) ∧
      ∀ s e, (mkCapsWordIssue text paraIdx s e).char_index = s + 1 ∧
        (mkCapsWordIssue text paraIdx s e).all_caps = false ∧
        (mkCapsWordIssue text paraIdx s e).matched ≠ "ALL CAPS sentence".data →
          (mkCapsWordIssue text paraIdx s e).matched = slice text s e) ∧
    ∀ (rules : List Rule) (runs : List Run),
      (rulesPhase paraIdx text rules (initState runs)).issues.any
        (fun r => r.all_caps && r.paragraph_index == paraIdx) = false := by
  refine ⟨?_, ?_, ?_⟩
  · intro hg h0 h6
    exact ⟨capsPhase_high_issues hg h0 h6, rfl, rfl, rfl⟩
  · intro h
    exact ⟨capsPhase_low_issues h, fun s e _ => rfl⟩
  · intro rules runs
    refine no_allcaps_guard (rulesPhase_allcaps ?_)
    intro ι hι
    simp [initState] at hι

/-- Witness for C4 at concrete inputs on both sides of the threshold:
"THIS IS A TEST sentence" has 3 of 4 qualifying tokens uppercase and
yields exactly the synthetic issue; "ABC is a normal case word" is below
the threshold and yields exactly the standalone issue for "ABC". -/
theorem C4_caps_threshold_witness :
    (capsPhase 1 "THIS IS A TEST sentence".data (initState [])).issues =
      [allCapsIssue "THIS IS A TEST sentence".data 1] ∧
    (capsPhase 1 "ABC is a normal case word".data (initState [])).issues =
      [mkCapsWordIssue "ABC is a normal case word".data 1 0 3] := by
  constructor
  · have h := ((C4_caps_threshold 1 "THIS IS A TEST sentence".data
      (initState [])).1 (by decide) (by decide) (by decide)).1
    simpa [initState] using h
  · have h := ((C4_caps_threshold 1 "ABC is a normal case word".data
      (initState [])).2.1 (by decide)).1
    rw [h]
    decide

/-- C5 — Regional spelling casing: the regional spelling phase emits an
issue exactly for each word token whose lowercased form is a key of the
regional-variant table and whose offsets are unclaimed; the issue's
match field is the word's slice of the source text (exact casing
preserved, while the lookup uses the lowercased form), with severity
"warning" and the 1-based start offset. -/
theorem C5_regional_casing (paraIdx : Nat) (text : List Char) (st : PState) :
    (britishPhase paraIdx text st).issues = st.issues ++
      (scanToks text wordAposChar 1).filterMap (fun m =>
        if !anyClaimed st.applied m.1 m.2 &&
            (britishLookup (lowerChars (slice text m.1 m.2))).isSome
        then some (mkBritIssue text paraIdx m.1 m.2) else none) ∧
    ∀ s e, (mkBritIssue text paraIdx s e).matched = slice text s e ∧
      (mkBritIssue text paraIdx s e).severity = "warning" ∧
      (mkBritIssue text paraIdx s e).char_index = s + 1 :=
  ⟨britishPhase_issues, fun _ _ => ⟨rfl, rfl, rfl⟩⟩

/-- C6 — Dictionary rarity: the dictionary phase (the last matcher of the
pipeline) flags exactly the whole alphabetic word tokens at unclaimed
offsets whose lowercased frequency is strictly below the 1e-6 threshold;
consequently every issue it appends concerns an alphabetic word whose
frequency is strictly below the threshold, so a word at or above the
threshold is never flagged. -/
theorem C6_dict_rarity (freq : List Char → ℚ) (paraIdx : Nat)
    (text : List Char) (st : PState) :
    ((dictPhase freq paraIdx text st).issues = st.issues ++
      (scanToks text wordAposChar 1).filterMap (fun m =>
        if !anyClaimed st.applied m.1 m.2 &&
            (pyIsAlpha (slice text m.1 m.2) &&
              decide (freq (lowerChars (slice text m.1 m.2)) < RARE_LIMIT))
        then some (mkDictIssue text paraIdx m.1 m.2) else none)) ∧
    ∀ ι ∈ (dictPhase freq paraIdx text st).issues, ι ∉ st.issues →
      freq (lowerChars ι.matched) < RARE_LIMIT ∧ pyIsAlpha ι.matched = true := by
  refine ⟨dictPhase_issues, ?_⟩
  intro ι hι hnot
  rw [dictPhase_issues] at hι
  rcases List.mem_append.mp hι with h1 | h2
  · exact absurd h1 hnot
  · obtain ⟨m, hm, heq⟩ := List.mem_filterMap.mp h2
    split at heq
    · rename_i hcond
      injection heq with heq'
      subst heq'
      simp only [Bool.and_eq_true, decide_eq_true_eq] at hcond
      exact ⟨hcond.2.2, hcond.2.1⟩
    · exact absurd heq (by simp)

/-- Witness for C6 at a concrete input: with the zero frequency table the
word "zqzq" is flagged, and the theorem yields that its frequency is
below the threshold. -/
theorem C6_dict_rarity_witness :
    (fun _ => (0 : ℚ)) (lowerChars (mkDictIssue "zqzq".data 7 0 4).matched) <
      RARE_LIMIT :=
  ((C6_dict_rarity (fun _ => 0) 7 "zqzq".data (initState [])).2
    (mkDictIssue "zqzq".data 7 0 4) (by decide) (by decide)).1

/-- C10 — Apostrophe words exempt from spellcheck: every issue the
dictionary phase appends has a purely alphabetic match, so a token
containing an apostrophe is never flagged as unrecognized, whatever its
frequency. -/
theorem C10_apostrophe_exempt (freq : List Char → ℚ) (paraIdx : Nat)
    (text : List Char) (st : PState) :
    ∀ ι ∈ (dictPhase freq paraIdx text st).issues, ι ∉ st.issues →
      apos ∉ ι.matched := by
  intro ι hι hnot hmem
  rw [dictPhase_issues] at hι
  rcases List.mem_append.mp hι with h1 | h2
  · exact hnot h1
  · obtain ⟨m, hm, heq⟩ := List.mem_filterMap.mp h2
    split at heq
    · rename_i hcond
      injection heq with heq'
      subst heq'
      simp only [Bool.and_eq_true] at hcond
      have halpha := hcond.2.1
      simp only [pyIsAlpha, Bool.and_eq_true, List.all_eq_true] at halpha
      have := halpha.2 apos hmem
      exact absurd this (by decide)
    · exact absurd heq (by simp)

/-- Witness for C10 at a concrete input: the flagged word "qqqz" contains
no apostrophe. -/
theorem C10_apostrophe_exempt_witness :
    apos ∉ (mkDictIssue "qqqz".data 3 0 4).matched :=
  C10_apostrophe_exempt (fun _ => 0) 3 "qqqz".data (initState [])
    (mkDictIssue "qqqz".data 3 0 4) (by decide) (by decide)

end Styler

namespace Styler

/-- Counterexample to C3 as stated: in the paragraph "foo foo" the rule
pattern "foo" matches at (0, 3) and again at (4, 7) — non-overlapping and
at unclaimed offsets — yet after analysis only one issue exists, offsets
4 to 6 are not claimed, and the second run keeps color `none`: the later
occurrence is NOT colorized, contrary to the claim. -/
theorem C3_counterexample :
    scanPat (flatText [⟨"foo ".data, none⟩, ⟨"foo".data, none⟩]) "foo".data =
      [(0, 3), (4, 7)] ∧
    (analyzeParaState [⟨"foo".data, none, "use bar", "warning", "flag"⟩]
      (fun _ => 1) 1 [⟨"foo ".data, none⟩, ⟨"foo".data, none⟩]).issues.length = 1 ∧
    (4 : Nat) ∉ (analyzeParaState
      [⟨"foo".data, none, "use bar", "warning", "flag"⟩]
      (fun _ => 1) 1 [⟨"foo ".data, none⟩, ⟨"foo".data, none⟩]).applied ∧
    (analyzeParaState [⟨"foo".data, none, "use bar", "warning", "flag"⟩]
      (fun _ => 1) 1 [⟨"foo ".data, none⟩, ⟨"foo".data, none⟩]).runs =
      [⟨"foo ".data, some ⟨255, 165, 0⟩⟩, ⟨"foo".data, none⟩] := by
  decide

/-- A rule-loop iteration whose pattern is already in the reported set
leaves the whole state unchanged. -/
theorem ruleMatchStep_reported {paraIdx : Nat} {text : List Char} {r : Rule}
    {st : PState} {m : Nat × Nat} (h : st.reported.contains r.pattern = true) :
    ruleMatchStep paraIdx text r st m = st := by
  have h' : r.pattern ∈ st.reported := List.elem_iff.mp h
  simp [ruleMatchStep, h']

/-- Once the pattern is reported, the remaining rule-loop fold is the
identity. -/
theorem ruleFold_reported {paraIdx : Nat} {text : List Char} {r : Rule} :
    ∀ {ms : List (Nat × Nat)} {st : PState},
      st.reported.contains r.pattern = true →
      ms.foldl (ruleMatchStep paraIdx text r) st = st
  | [], _, _ => rfl
  | m :: ms, st, h => by
    simp only [List.foldl_cons]
    rw [ruleMatchStep_reported h, ruleFold_reported h]

/-- A rule-loop iteration either leaves the state unchanged or appends
exactly one issue while marking the pattern reported. -/
theorem ruleMatchStep_out {paraIdx : Nat} {text : List Char} {r : Rule}
    {st : PState} {m : Nat × Nat} :
    ruleMatchStep paraIdx text r st m = st ∨
    ((ruleMatchStep paraIdx text r st m).issues.length =
        st.issues.length + 1 ∧
      (ruleMatchStep paraIdx text r st m).reported.contains r.pattern = true) := by
  unfold ruleMatchStep
  split
  · exact Or.inl rfl
  · split
    · exact Or.inl rfl
    · refine Or.inr ⟨?_, ?_⟩
      · simp [claimColor]
      · simp [claimColor, List.contains, List.elem_iff]

/-- The rule-loop fold for one rule appends at most one issue. -/
theorem ruleFold_len {paraIdx : Nat} {text : List Char} {r : Rule} :
    ∀ {ms : List (Nat × Nat)} {st : PState},
      (ms.foldl (ruleMatchStep paraIdx text r) st).issues.length ≤
        st.issues.length + 1
  | [], st => Nat.le_succ _
  | m :: ms, st => by
    simp only [List.foldl_cons]
    rcases @ruleMatchStep_out paraIdx text r st m with h | ⟨h1, h2⟩
    · rw [h]
      exact ruleFold_len
    · rw [ruleFold_reported h2, h1]

/-- C3, amended — rule-match dedup suppresses both reporting and
coloring: once a rule's pattern has been reported in the paragraph, every
later match of that pattern is skipped entirely (the step returns the
state unchanged: no issue, no coloring, no claiming), so one rule emits
at most one issue per paragraph. -/
theorem C3_rule_dedup_amended :
    (∀ (paraIdx : Nat) (text : List Char) (r : Rule) (st : PState)
      (m : Nat × Nat),
      st.reported.contains r.pattern = true →
      ruleMatchStep paraIdx text r st m = st) ∧
    ∀ (paraIdx : Nat) (text : List Char) (r : Rule) (st : PState),
      (ruleApply paraIdx text st r).issues.length ≤ st.issues.length + 1 := by
  constructor
  · intro paraIdx text r st m h
    exact ruleMatchStep_reported h
  · intro paraIdx text r st
    unfold ruleApply
    split
    · exact Nat.le_succ _
    · exact ruleFold_len

/-- Witness for the amended C3 at a concrete input: with "foo" already
reported and the second occurrence's offsets free, the step changes
nothing. -/
theorem C3_rule_dedup_amended_witness :
    ruleMatchStep 1 "foo foo".data
      (⟨"foo".data, none, "use bar", "warning", "flag"⟩ : Rule)
      { runs := [⟨"foo foo".data, none⟩], applied := [0, 1, 2],
        reported := ["foo".data], issues := [], colored := [(0, 3)] } (4, 7) =
      { runs := [⟨"foo foo".data, none⟩], applied := [0, 1, 2],
        reported := ["foo".data], issues := [], colored := [(0, 3)] } :=
  C3_rule_dedup_amended.1 1 "foo foo".data _ _ (4, 7) (by decide)

/-- A rule with an empty pattern is skipped without effect. -/
theorem ruleApply_empty {paraIdx : Nat} {text : List Char} {st : PState}
    {r : Rule} (h : r.pattern = []) : ruleApply paraIdx text st r = st := by
  simp [ruleApply, h]

/-- Removing an empty-pattern rule from the rule list does not change the
rule phase. -/
theorem rulesPhase_drop_empty {paraIdx : Nat} {text : List Char} {r : Rule}
    (h : r.pattern = []) (pre post : List Rule) (st : PState) :
    rulesPhase paraIdx text (pre ++ r :: post) st =
      rulesPhase paraIdx text (pre ++ post) st := by
  unfold rulesPhase
  rw [List.foldl_append, List.foldl_append, List.foldl_cons, ruleApply_empty h]

/-- Removing an empty-pattern rule does not change a paragraph's
analysis. -/
theorem analyzePara_drop_empty {r : Rule} (h : r.pattern = [])
    (pre post : List Rule) (freq : List Char → ℚ) (paraIdx : Nat)
    (runs : List Run) :
    analyzeParaState (pre ++ r :: post) freq paraIdx runs =
      analyzeParaState (pre ++ post) freq paraIdx runs := by
  simp only [analyzeParaState]
  split
  · rfl
  · rw [rulesPhase_drop_empty h]

/-- Removing an empty-pattern rule does not change the paragraph loop. -/
theorem docAux_drop_empty {r : Rule} (hr : r.pattern = [])
    (pre post : List Rule) (freq : List Char → ℚ) :
    ∀ (idx : Nat) (doc : List (List Run)),
      analyzeDocAux (pre ++ r :: post) freq idx doc =
        analyzeDocAux (pre ++ post) freq idx doc
  | _, [] => rfl
  | idx, p :: ps => by
    simp only [analyzeDocAux, analyzePara]
    rw [docAux_drop_empty hr pre post freq (idx + 1) ps,
      analyzePara_drop_empty hr]

/-- C7 — Empty-pattern rules are inert: wherever an empty-pattern rule
sits in the rule list, the engine behaves exactly as if it were absent —
it emits no issue and colors no offsets for that rule, in every paragraph
of every document, and no error arises. -/
theorem C7_empty_pattern_inert (r : Rule) (hr : r.pattern = [])
    (pre post : List Rule) (freq : List Char → ℚ) (doc : List (List Run)) :
    analyzeDoc (pre ++ r :: post) freq doc =
      analyzeDoc (pre ++ post) freq doc :=
  docAux_drop_empty hr pre post freq 1 doc

/-- Witness for C7 at a concrete input: an empty-pattern rule on a
one-paragraph document is equivalent to the empty rule list. -/
theorem C7_empty_pattern_inert_witness :
    analyzeDoc [⟨[], none, "empty", "warning", "flag"⟩] (fun _ => 1)
      [[⟨"hi there".data, none⟩]] =
    analyzeDoc [] (fun _ => 1) [[⟨"hi there".data, none⟩]] :=
  C7_empty_pattern_inert ⟨[], none, "empty", "warning", "flag"⟩ rfl [] []
    (fun _ => 1) [[⟨"hi there".data, none⟩]]

/-- C8 — Determinism: the engine of the embedding is a pure function of
the rule list, the frequency table and the (unmutated) input document —
it keeps no ambient state — so two runs on the same original document
return identical issue lists (same records, same field values, same
order) and identical mutated documents. -/
theorem C8_determinism (rules : List Rule) (freq : List Char → ℚ)
    (doc : List (List Run)) :
    (analyzeDoc rules freq doc).2 = (analyzeDoc rules freq doc).2 ∧
    (analyzeDoc rules freq doc).1 = (analyzeDoc rules freq doc).1 :=
  ⟨rfl, rfl⟩

end Styler
